import Mathlib

/-!
Verification of the variable-length column (`ColumnJson`) and the Map logical
type (`DataTypeMap`) of the vectorized columnar core.

The column is embedded exactly as in the source: a flat byte buffer `chars`
(bytes as `Nat`, each < 256 in practice) plus an offset index `offsets`, where
`offsets[i]` is the exclusive end position of row `i` and the `-1`-th offset is
conceptually `0` (the source's `PaddedPODArray` returns `0` there).
Machine `size_t` values are embedded as `Nat`; the only place where the 64-bit
width matters (the arena length header) carries an explicit `% 2^64` byte
encoding.  Fatal `LOG(FATAL)` aborts are embedded as `Except Unit` errors.
-/

namespace ColumnJson

/-- A variable-length column: concatenated row payloads plus the offset index.
Mirrors `ColumnJson`'s `chars` / `offsets` members. -/
structure Col where
  chars : List Nat
  offsets : List Nat
deriving Repr, DecidableEq

/-- `offset_at(i)`: start position of row `i`; `offsets[-1]` is `0`
(PaddedPODArray padding, as used throughout the source). -/
def offAt (c : Col) (i : Nat) : Nat :=
  if i = 0 then 0 else c.offsets.getD (i - 1) 0

/-- `size_at(i)`: byte length of row `i` (`offsets[i] - offsets[i-1]`). -/
def sizeAt (c : Col) (i : Nat) : Nat :=
  c.offsets.getD i 0 - offAt c i

/-- Number of rows (`size()` = `offsets.size()`). -/
def rowCount (c : Col) : Nat := c.offsets.length

/-- The byte payload of row `i`: the slice `[offset_at(i), offsets[i])` of `chars`. -/
def rowBytes (c : Col) (i : Nat) : List Nat :=
  (c.chars.drop (offAt c i)).take (sizeAt c i)

/-- All rows of the column, in order. -/
def rowsOf (c : Col) : List (List Nat) :=
  (List.range c.offsets.length).map (rowBytes c)

/-- The representation invariants stated by the specification: `offsets` is
non-decreasing, `chars.size() == offsets.back()` whenever N > 0, `chars` is
empty iff N == 0, and every row's byte range lies within the buffer. -/
def Valid (c : Col) : Prop :=
  List.Pairwise (· ≤ ·) c.offsets ∧
  (c.offsets ≠ [] → c.offsets.getLastD 0 = c.chars.length) ∧
  (c.chars = [] ↔ c.offsets = []) ∧
  (∀ i, i < c.offsets.length →
    offAt c i ≤ c.offsets.getD i 0 ∧ c.offsets.getD i 0 ≤ c.chars.length)

instance (c : Col) : Decidable (Valid c) := by
  unfold Valid; infer_instance

/-- `ColumnJson::clone_resized(to_size)`.  Truncation keeps the first `to_size`
offsets and the chars prefix up to `offsets[to_size-1]`; growth copies the
whole column and appends one zero terminating byte per extra row, advancing
the offset by one each time (source lines 19-52). -/
def cloneResized (c : Col) (toSize : Nat) : Col :=
  if toSize = 0 then ⟨[], []⟩
  else
    let fromSize := c.offsets.length
    if toSize ≤ fromSize then
      ⟨c.chars.take (c.offsets.getD (toSize - 1) 0), c.offsets.take toSize⟩
    else
      let baseChars := if 0 < fromSize then c.chars else []
      let baseOffs := if 0 < fromSize then c.offsets else []
      let offset := if 0 < fromSize then c.offsets.getLastD 0 else 0
      ⟨baseChars ++ List.replicate (toSize - fromSize) 0,
       baseOffs ++ (List.range (toSize - fromSize)).map (fun i => offset + i + 1)⟩

/-- `ColumnJson::insert_range_from(src, start, length)` (source lines 54-101).
Returns early when `length == 0`; aborts (fatal) when `start + length`
exceeds the source row count; otherwise appends the byte range and re-based
offsets. -/
def insertRangeFrom (dst src : Col) (start length : Nat) : Except Unit Col :=
  if length = 0 then .ok dst
  else if src.offsets.length < start + length then .error ()
  else
    let nestedOffset := offAt src start
    let nestedLength := src.offsets.getD (start + length - 1) 0 - nestedOffset
    let newChars := dst.chars ++ (src.chars.drop nestedOffset).take nestedLength
    let newOffsets :=
      if start = 0 ∧ dst.offsets = [] then src.offsets.take length
      else
        let prevMax := dst.offsets.getLastD 0
        dst.offsets ++
          (List.range length).map
            (fun i => src.offsets.getD (start + i) 0 - nestedOffset + prevMax)
    .ok ⟨newChars, newOffsets⟩

/-- Modelled from the spec: `insert_many_defaults` lives in the column header,
which is not part of the supplied sources.  The spec says `resize` "to a
larger count appends default (empty) rows" and the source comments that
"empty strings are just zero terminating bytes" (clone_resized, line 40), so a
default row is a single zero byte with the offset advanced by one. -/
def insertManyDefaults (c : Col) (k : Nat) : Col :=
  ⟨c.chars ++ List.replicate k 0,
   c.offsets ++ (List.range k).map (fun i => c.chars.length + i + 1)⟩

/-- `ColumnJson::resize(n)` (source lines 340-347): shrinking truncates only
the offset index (`offsets.resize(n)`) and leaves `chars` untouched; growing
appends default rows. -/
def resize (c : Col) (n : Nat) : Col :=
  if n < c.offsets.length then ⟨c.chars, c.offsets.take n⟩
  else if c.offsets.length < n then insertManyDefaults c (n - c.offsets.length)
  else c

/-- Little-endian encoding of a `size_t` length header (8 bytes). -/
def toLE64 (n : Nat) : List Nat :=
  [n % 256, n / 256 % 256, n / 256 ^ 2 % 256, n / 256 ^ 3 % 256,
   n / 256 ^ 4 % 256, n / 256 ^ 5 % 256, n / 256 ^ 6 % 256, n / 256 ^ 7 % 256]

/-- Little-endian decoding of the 8-byte length header (`unaligned_load<size_t>`). -/
def fromLE64 (bs : List Nat) : Nat :=
  bs.getD 0 0 + 256 * bs.getD 1 0 + 256 ^ 2 * bs.getD 2 0 + 256 ^ 3 * bs.getD 3 0 +
  256 ^ 4 * bs.getD 4 0 + 256 ^ 5 * bs.getD 5 0 + 256 ^ 6 * bs.getD 6 0 +
  256 ^ 7 * bs.getD 7 0

/-- `ColumnJson::serialize_value_into_arena(n, ...)` (source lines 172-184):
writes the 8-byte length header followed by the row's raw bytes; the returned
view is exactly these `8 + size_at(n)` bytes. -/
def serializeValueIntoArena (c : Col) (n : Nat) : List Nat :=
  toLE64 (sizeAt c n) ++ (c.chars.drop (offAt c n)).take (sizeAt c n)

/-- `ColumnJson::deserialize_and_insert_from_arena(pos)` (source lines 186-197):
reads the length header, appends that many bytes to `chars`, pushes the new
end offset `old_size + string_size`, and reports the number of consumed bytes
(the returned pointer is `pos + 8 + string_size`). -/
def deserializeAndInsertFromArena (c : Col) (buf : List Nat) : Col × Nat :=
  let stringSize := fromLE64 (buf.take 8)
  let newSize := c.chars.length + stringSize
  (⟨c.chars ++ (buf.drop 8).take stringSize, c.offsets ++ [newSize]⟩,
   8 + stringSize)

/-- One step of the common copy loop of `permute` / `index_impl` / `replicate`:
append a row slice to the result `chars`, advance `current_new_offset` by the
row's `string_size`, and push it onto the result `offsets`.  The state is
`(res_chars, res_offsets, current_new_offset)`. -/
def appendRowStep (st : List Nat × List Nat × Nat) (p : List Nat × Nat) :
    List Nat × List Nat × Nat :=
  (st.1 ++ p.1, st.2.1 ++ [st.2.2 + p.2], st.2.2 + p.2)

/-- Run the copy loop over a list of `(slice, string_size)` pairs, starting
from an empty result column. -/
def buildCol (ps : List (List Nat × Nat)) : Col :=
  let st := ps.foldl appendRowStep ([], [], 0)
  ⟨st.1, st.2.1⟩

/-- `ColumnJson::permute(perm, limit)` (source lines 126-170).  The limit is
first clamped (`limit == 0` means all rows, otherwise `min(size, limit)`), and
only then is `perm.size() < limit` checked (fatal).  The copy loop reads row
`perm[i]`'s slice `[offsets[j-1], offsets[j])` and appends it. -/
def permute (c : Col) (perm : List Nat) (limit : Nat) : Except Unit Col :=
  let s := c.offsets.length
  let lim := if limit = 0 then s else min s limit
  if perm.length < lim then .error ()
  else .ok (buildCol ((perm.take lim).map (fun j => (rowBytes c j, sizeAt c j))))

/-- The pair list traversed by the array-returning
`ColumnJson::replicate(replicate_offsets)` loop (source lines 265-302): entry
`i` contributes its row slice `replicate_offsets[i] - replicate_offsets[i-1]`
times.  `i` is the current row index and `prevRo` the running
`prev_replicate_offset`; `prev_string_offset` is `offAt c i`. -/
def replicatePairs (c : Col) : Nat → List Nat → Nat → List (List Nat × Nat)
  | _, [], _ => []
  | i, r :: ros, prevRo =>
    List.replicate (r - prevRo) (rowBytes c i, sizeAt c i) ++
      replicatePairs c (i + 1) ros r

/-- The array-returning `ColumnJson::replicate(replicate_offsets)`:
fatal when the argument's length differs from the row count; empty source
yields an empty result; otherwise runs the copy loop. -/
def replicate (c : Col) (ro : List Nat) : Except Unit Col :=
  if c.offsets.length ≠ ro.length then .error ()
  else if c.offsets.length = 0 then .ok ⟨[], []⟩
  else .ok (buildCol (replicatePairs c 0 ro 0))

/-- Byte-wise three-way comparison, the semantics of
`memcmp_small_allow_overflow15(a, a_size, b, b_size)`: compare the common
prefix byte by byte (unsigned), then the lengths. -/
def cmpBytes : List Nat → List Nat → Ordering
  | [], [] => .eq
  | [], _ :: _ => .lt
  | _ :: _, [] => .gt
  | a :: as, b :: bs => if a < b then .lt else if b < a then .gt else cmpBytes as bs

/-- The payload compared by `ColumnJson::less` (source lines 231-242): row
`i`'s bytes with the final byte dropped (`size_at(i) - 1`). -/
def cmpPayload (c : Col) (i : Nat) : List Nat :=
  (c.chars.drop (offAt c i)).take (sizeAt c i - 1)

/-- The ordering produced by `std::sort` under comparator `less<true>`
(`res < 0`): position `a` may precede `b` iff `b` is not strictly less
than `a`. -/
def leAsc (c : Col) (a b : Nat) : Prop :=
  cmpBytes (cmpPayload c b) (cmpPayload c a) ≠ .lt

/-- The ordering produced by `std::sort` under comparator `less<false>`
(`res > 0`, reverse direction). -/
def leDesc (c : Col) (a b : Nat) : Prop :=
  cmpBytes (cmpPayload c b) (cmpPayload c a) ≠ .gt

instance (c : Col) : DecidableRel (leAsc c) := by
  unfold leAsc; infer_instance

instance (c : Col) : DecidableRel (leDesc c) := by
  unfold leDesc; infer_instance

/-- `ColumnJson::get_permutation(reverse, limit, res)` (source lines 244-263):
`res` starts as the identity permutation; `limit >= s` is treated as a full
sort; both `std::sort` and `std::partial_sort` are modelled by a total sort
satisfying their ordering contracts (`std::partial_sort` guarantees only the
first `limit` positions; a fully sorted sequence is one of its allowed
outcomes). -/
def getPermutation (c : Col) (reverse : Bool) (limit : Nat) : List Nat :=
  let s := c.offsets.length
  let res := List.range s
  let lim := if s ≤ limit then 0 else limit
  if lim > 0 then
    if reverse then res.insertionSort (leDesc c) else res.insertionSort (leAsc c)
  else
    if reverse then res.insertionSort (leDesc c) else res.insertionSort (leAsc c)

end ColumnJson

namespace DataTypeMap

open ColumnJson

/-- C `isspace`: the six standard whitespace characters. -/
def isSpaceC (c : Char) : Bool :=
  c = ' ' || c = '\t' || c = '\n' || c = '\x0b' || c = '\x0c' || c = '\r'

/-- The ltrim loop of `next_slot_from_string`: number of leading whitespace
characters skipped. -/
def countLeadingSpace : List Char → Nat
  | [] => 0
  | c :: cs => if isSpaceC c then countLeadingSpace cs + 1 else 0

/-- The element scan loop of `next_slot_from_string` (source lines 121-129):
advance until a separator `':'`/`','`, or a `'}'` that is the very last
character; `none` when the buffer is exhausted first (line 131) or when a
non-space character follows a quoted token (line 124).  On success, the number
of characters consumed before the separator. -/
def scanToSep (hasQuota : Bool) : List Char → Option Nat
  | [] => none
  | c :: cs =>
    if c ≠ ':' ∧ c ≠ ',' ∧ ¬(cs = [] ∧ c = '}') then
      if hasQuota ∧ ¬ isSpaceC c then none
      else (scanToSep hasQuota cs).map (· + 1)
    else some 0

/-- The rtrim step of `next_slot_from_string` (source line 138): drop trailing
whitespace from the token. -/
def rtrimToken (l : List Char) : List Char :=
  (l.reverse.dropWhile isSpaceC).reverse

/-- The quote-stripping step of `next_slot_from_string` (source lines 143-147). -/
def stripQuotes (l : List Char) : List Char :=
  if 2 ≤ l.length ∧ (l.getD 0 ' ' = '"' ∨ l.getD 0 ' ' = '\'') ∧
      l.getD 0 ' ' = l.getLastD ' '
  then (l.drop 1).take (l.length - 2) else l

/-- `next_slot_from_string(rb, output)` (source lines 90-150) on the remaining
buffer `s`.  Returns `none` on failure, or `some (token, k)` where the token is
the trimmed/unquoted element text and `k + 1` characters of `s` were consumed
(the `+ 1` being the separator skipped at line 135).  A buffer that is empty,
or all spaces, fails; an unterminated quote fails; reaching the end with no
separator fails. -/
def nextSlot (s : List Char) : Option (List Char × Nat) :=
  if s.isEmpty then none
  else
    let n1 := countLeadingSpace s
    let s1 := s.drop n1
    match s1 with
    | [] => none
    | q :: rest =>
      if q = '"' ∨ q = '\'' then
        match rest.findIdx? (· = q) with
        | none => none
        | some i =>
          match scanToSep true (s1.drop (i + 2)) with
          | none => none
          | some m =>
            some (stripQuotes (rtrimToken (s1.take (i + 2 + m))), n1 + (i + 2) + m)
      else
        match scanToSep false s1 with
        | none => none
        | some m =>
          some (stripQuotes (rtrimToken (s1.take m)), n1 + m)

/-- The error classes of `DataTypeMap::from_string`, one per distinct return
site in the source: the two brace checks, the two slot-tokenization failures,
and the two element-parse failures. -/
inductive MapErr where
  | notBrace
  | noEndBrace
  | keyToken
  | valToken
  | keyParse
  | valParse
deriving Repr, DecidableEq

/-- The nested state of a map column that `from_string` mutates: the parsed
key and value elements held by the nested (nullable) columns, plus the two
array offset indices. -/
structure MapState (κ ν : Type) where
  keys : List κ
  vals : List ν
  keyOff : List Nat
  valOff : List Nat
deriving Repr

/-- Modelled from the spec: `ColumnMap::pop_back(n)` (the column class is not
among the supplied sources) "rolls back all element rows inserted for the
current map row", i.e. removes the last `n` elements from the nested key and
value columns. -/
def popBackPair (keys : List κ) (vals : List ν) (n : Nat) :
    List κ × List ν :=
  (keys.take (keys.length - n), vals.take (vals.length - n))

/-- Result of the `from_string` parse loop: the error (if any), the nested
element columns after the call, and the final `element_num`. -/
structure LoopOut (κ ν : Type) where
  err : Option MapErr
  keys : List κ
  vals : List ν
  elementNum : Nat
deriving Repr

/-- The `while (!rb.eof())` loop of `DataTypeMap::from_string` (source lines
183-206).  `pk` / `pv` are the nested element types' `from_string` parsers,
which atomically append one parsed element on success and nothing on failure.
On a key or value element-parse failure the source pops `element_num`
elements; on a slot-tokenization failure it returns without popping.
The loop is driven by a `fuel` bound passed as the remaining buffer length:
each iteration consumes at least two characters (`nextSlot` always consumes
at least one), so the fuel can never run out before the buffer empties
(`fromStringLoop_fuel_irrelevant` below makes this precise). -/
def fromStringLoop (pk : List Char → Option κ) (pv : List Char → Option ν) :
    Nat → List Char → List κ → List ν → Nat → LoopOut κ ν
  | 0, _, keys, vals, eNum => ⟨none, keys, vals, eNum⟩
  | fuel + 1, s, keys, vals, eNum =>
    if s = [] then ⟨none, keys, vals, eNum⟩
    else
      match nextSlot s with
      | none => ⟨some .keyToken, keys, vals, eNum⟩
      | some (ktok, k1) =>
        let s1 := s.drop (k1 + 1)
        match nextSlot s1 with
        | none => ⟨some .valToken, keys, vals, eNum⟩
        | some (vtok, k2) =>
          let s2 := s1.drop (k2 + 1)
          match pk ktok with
          | none =>
            let p := popBackPair keys vals eNum
            ⟨some .keyParse, p.1, p.2, eNum⟩
          | some k =>
            match pv vtok with
            | none =>
              let p := popBackPair (keys ++ [k]) vals eNum
              ⟨some .valParse, p.1, p.2, eNum⟩
            | some v =>
              fromStringLoop pk pv fuel s2 (keys ++ [k]) (vals ++ [v]) (eNum + 1)

/-- `DataTypeMap::from_string(rb, column)` (source lines 152-211): checks the
braces, handles the empty map `{}` by appending a zero-length row, and
otherwise runs the parse loop on the contents after `'{'` (the final `'}'` is
consumed as the last value's separator); after a fully successful row one
offset entry equal to `back() + element_num` is pushed onto each array offset
index. -/
def fromString (pk : List Char → Option κ) (pv : List Char → Option ν)
    (buf : List Char) (st : MapState κ ν) : Option MapErr × MapState κ ν :=
  if buf.getD 0 ' ' ≠ '{' then (some .notBrace, st)
  else if buf.getLastD ' ' ≠ '}' then (some .noEndBrace, st)
  else if buf.length = 2 then
    (none, ⟨st.keys, st.vals,
            st.keyOff ++ [st.keyOff.getLastD 0], st.valOff ++ [st.valOff.getLastD 0]⟩)
  else
    match fromStringLoop pk pv (buf.drop 1).length (buf.drop 1) st.keys st.vals 0 with
    | ⟨some e, ks, vs, _⟩ => (some e, ⟨ks, vs, st.keyOff, st.valOff⟩)
    | ⟨none, ks, vs, eNum⟩ =>
      (none, ⟨ks, vs,
              st.keyOff ++ [st.keyOff.getLastD 0 + eNum],
              st.valOff ++ [st.valOff.getLastD 0 + eNum]⟩)

/-- `DataTypeMap::serialize(column, buf, ...)` (source lines 252-258): the
nested array types' serializers are abstract here (their classes are not among
the supplied sources); each writes its block at the current buffer position
and returns the advanced position.  The map serializer is exactly their
composition, keys first. -/
def mapSerialize (kSer vSer : List Nat → List Nat) (buf : List Nat) : List Nat :=
  vSer (kSer buf)

/-- `DataTypeMap::get_uncompressed_serialized_bytes` (source lines 243-249):
the sum of the two nested sub-sizes. -/
def mapSerializedBytes (kBytes vBytes : Nat) : Nat := kBytes + vBytes

/-- `DataTypeMap::deserialize(buf, column, ...)` (source lines 260-265): the
nested deserializers are abstract consumers reporting how many bytes they
consumed; the keys block is read first, then the values block from the
advanced position.  Returns the total number of consumed bytes (the returned
pointer is `buf + that total`). -/
def mapDeserialize (kDe vDe : List Nat → Nat) (buf : List Nat) : Nat :=
  let a := kDe buf
  a + vDe (buf.drop a)

/-- A closed universe of logical data types sufficient to state `equals`:
scalars, `Nullable`, `Array`, and `Map` (holding its two `Array`-wrapped
member types `keys` / `values`, as the source class does). -/
inductive DType where
  | int
  | str
  | nullable (inner : DType)
  | array (inner : DType)
  | map (keys values : DType)
deriving Repr, DecidableEq

/-- `IDataType::is_nullable` for this universe. -/
def isNullableT : DType → Bool
  | .nullable _ => true
  | _ => false

/-- Modelled from the spec: `make_nullable` (not among the supplied sources)
wraps a type in `Nullable`; the `DataTypeMap` constructor applies it only when
the argument is not already nullable (source lines 29-43). -/
def makeNullable (t : DType) : DType :=
  if isNullableT t then t else .nullable t

/-- The `DataTypeMap` constructor (source lines 29-43): coerce both element
types to nullable, then wrap each in an `Array` type. -/
def mkDataTypeMap (keys_ values_ : DType) : DType :=
  .map (.array (makeNullable keys_)) (.array (makeNullable values_))

/-- `equals` for the universe.  The `map` case mirrors
`DataTypeMap::equals` (source lines 225-241): a `typeid` check (same head
constructor) followed by `keys->equals` and `values->equals`.  The other
cases are modelled from the spec's "structurally equal" (their classes are
not among the supplied sources). -/
def dtEquals : DType → DType → Bool
  | .int, .int => true
  | .str, .str => true
  | .nullable a, .nullable b => dtEquals a b
  | .array a, .array b => dtEquals a b
  | .map k1 v1, .map k2 v2 => dtEquals k1 k2 && dtEquals v1 v2
  | _, _ => false

end DataTypeMap

namespace ColumnJson

/-- Total byte length of a list of rows. -/
def sumLen (rs : List (List Nat)) : Nat := (rs.map List.length).sum

/-- Cumulative end offsets of a list of rows, starting from base `n`. -/
def cumulFrom (n : Nat) : List (List Nat) → List Nat
  | [] => []
  | r :: rs => (n + r.length) :: cumulFrom (n + r.length) rs

/-- The column whose rows are exactly `rs`: concatenated payloads plus
cumulative offsets. -/
def mkColOfRows (rs : List (List Nat)) : Col :=
  ⟨rs.flatten, cumulFrom 0 rs⟩

/-- Reference definition following the spec's words for `replicate`: row `i`
of the source is repeated a given number of times, in output order.  Under the
correction, the repeat count of row `i` is `ro[i] - ro[i-1]` for the
cumulative argument `ro`. -/
def repRowsSpec : List (List Nat) → List Nat → Nat → List (List Nat)
  | _, [], _ => []
  | [], _ :: _, _ => []
  | row :: rows, r :: ros, prevRo =>
    List.replicate (r - prevRo) row ++ repRowsSpec rows ros r

/-- Two-row column holding `"a\0"` and `"b\0"`. -/
def colAB : Col := ⟨[97, 0, 98, 0], [2, 4]⟩

/-- Two-row column holding bytes `[97,98]` and `[99]`. -/
def colBug : Col := ⟨[97, 98, 99], [2, 3]⟩

/-- Two-row column holding bytes `[1,200]` and `[1,2,100]` (rows that do not
end in a zero terminator, so dropping the final byte changes the order). -/
def colCmp : Col := ⟨[1, 200, 1, 2, 100], [2, 5]⟩

end ColumnJson

namespace DataTypeMap

/-- The character list of the map literal `x7b"a":1,"b"x7d` (with braces):
codes `123 34 97 34 58 49 44 34 98 34 125`.  Its second pair has a key slot
but no value slot, so value-slot tokenization fails after the first pair was
parsed and inserted. -/
def bufTokFail : List Char :=
  List.map Char.ofNat [123, 34, 97, 34, 58, 49, 44, 34, 98, 34, 125]

/-- The character list of the map literal `x7b"a":1x7d` (with braces):
codes `123 34 97 34 58 49 125`. -/
def bufOnePair : List Char :=
  List.map Char.ofNat [123, 34, 97, 34, 58, 49, 125]

/-- An initially empty map column state over token-list elements. -/
def stEmpty : MapState (List Char) (List Char) := ⟨[], [], [], []⟩

/-- An element parser that accepts any token verbatim. -/
def pAccept : List Char → Option (List Char) := fun t => some t

/-- An element parser that rejects every token. -/
def pReject : List Char → Option (List Char) := fun _ => none

end DataTypeMap

namespace ColumnJson

/-- C10: `insert_range_from(src, start, 0)` returns with the destination
unchanged and never reaches the fatal bounds check, for every source and every
`start` (the `length == 0` early return precedes the check, source line 55). -/
theorem c10_insert_range_from_zero_length (dst src : Col) (start : Nat) :
    insertRangeFrom dst src start 0 = .ok dst := by
  simp [insertRangeFrom]

/-- C1 (code bug): `resize` to a smaller row count truncates only the offset
index and leaves `chars` untouched (source lines 340-347), so on the valid
two-row column `⟨[97,98,99],[2,3]⟩` the call `resize 1` yields
`⟨[97,98,99],[2]⟩`, whose `chars.size() = 3` differs from `offsets.back() = 2`:
the claimed invariant `chars.size() == offsets.back()` for N > 0 is broken.
The rest of the file relies on that invariant (e.g. `clone_resized` reads
`offsets.back()` as the end of `chars`), so the code, not the claim, is at
fault. -/
theorem c1_resize_breaks_invariants :
    Valid colBug ∧
    resize colBug 1 = ⟨[97, 98, 99], [2]⟩ ∧
    ¬ Valid (resize colBug 1) := by
  refine ⟨by decide, by decide, by decide⟩

theorem length_cumulFrom (n : Nat) (rs : List (List Nat)) :
    (cumulFrom n rs).length = rs.length := by
  induction rs generalizing n with
  | nil => rfl
  | cons r rs ih => simp [cumulFrom, ih]

theorem sumLen_nil : sumLen [] = 0 := rfl

theorem sumLen_cons (r : List Nat) (rs : List (List Nat)) :
    sumLen (r :: rs) = r.length + sumLen rs := by
  simp [sumLen]

theorem sumLen_append (rs ss : List (List Nat)) :
    sumLen (rs ++ ss) = sumLen rs + sumLen ss := by
  simp [sumLen]

theorem cumulFrom_append (n : Nat) (rs ss : List (List Nat)) :
    cumulFrom n (rs ++ ss) = cumulFrom n rs ++ cumulFrom (n + sumLen rs) ss := by
  induction rs generalizing n with
  | nil => simp [cumulFrom, sumLen_nil]
  | cons r rs ih => simp [cumulFrom, ih, sumLen_cons]; ring_nf

theorem cumulFrom_getD (n : Nat) (rs : List (List Nat)) (i : Nat) (hi : i < rs.length) :
    (cumulFrom n rs).getD i 0 = n + sumLen (rs.take (i + 1)) := by
  induction rs generalizing n i with
  | nil => simp at hi
  | cons r rs ih =>
    cases i with
    | zero => simp [cumulFrom, sumLen_cons, sumLen_nil]
    | succ j =>
      simp only [cumulFrom, List.getD_cons_succ, List.take_succ_cons, sumLen_cons]
      rw [ih _ _ (by simpa using hi)]
      ring_nf

theorem flatten_drop_sumLen (rs : List (List Nat)) (i : Nat) :
    rs.flatten.drop (sumLen (rs.take i)) = (rs.drop i).flatten := by
  induction rs generalizing i with
  | nil => simp [sumLen]
  | cons r rs ih =>
    cases i with
    | zero => simp [sumLen]
    | succ j =>
      simp only [List.take_succ_cons, sumLen_cons, List.flatten_cons, List.drop_succ_cons]
      rw [@List.drop_append _ r rs.flatten (sumLen (rs.take j))]
      simp [ih]

theorem sumLen_take_succ (rs : List (List Nat)) (i : Nat) (hi : i < rs.length) :
    sumLen (rs.take (i + 1)) = sumLen (rs.take i) + (rs.getD i []).length := by
  unfold sumLen
  rw [List.map_take, List.map_take, List.sum_take_succ _ i (by simpa using hi)]
  simp [List.getD_eq_getElem?_getD, List.getElem?_eq_getElem hi]

theorem offAt_mkColOfRows (rs : List (List Nat)) (i : Nat) (hi : i ≤ rs.length) :
    offAt (mkColOfRows rs) i = sumLen (rs.take i) := by
  unfold offAt mkColOfRows
  rcases Nat.eq_zero_or_pos i with h0 | h0
  · simp [h0, sumLen]
  · have hne : i ≠ 0 := Nat.pos_iff_ne_zero.mp h0
    simp only [hne, if_false]
    rw [cumulFrom_getD 0 rs (i - 1) (by omega)]
    have : i - 1 + 1 = i := by omega
    rw [this]
    omega

theorem sizeAt_mkColOfRows (rs : List (List Nat)) (i : Nat) (hi : i < rs.length) :
    sizeAt (mkColOfRows rs) i = (rs.getD i []).length := by
  unfold sizeAt
  rw [offAt_mkColOfRows rs i (Nat.le_of_lt hi)]
  show (cumulFrom 0 rs).getD i 0 - _ = _
  rw [cumulFrom_getD 0 rs i hi, sumLen_take_succ rs i hi]
  omega

theorem rowBytes_mkColOfRows (rs : List (List Nat)) (i : Nat) (hi : i < rs.length) :
    rowBytes (mkColOfRows rs) i = rs.getD i [] := by
  unfold rowBytes
  rw [sizeAt_mkColOfRows rs i hi, offAt_mkColOfRows rs i (Nat.le_of_lt hi)]
  show (rs.flatten.drop (sumLen (rs.take i))).take _ = _
  rw [flatten_drop_sumLen rs i]
  have hd : rs.getD i [] = rs[i] := by
    rw [List.getD_eq_getElem?_getD, List.getElem?_eq_getElem hi]; rfl
  rw [hd, List.drop_eq_getElem_cons hi, List.flatten_cons, List.take_left]

theorem rowsOf_mkColOfRows (rs : List (List Nat)) :
    rowsOf (mkColOfRows rs) = rs := by
  unfold rowsOf
  have hlen : (mkColOfRows rs).offsets.length = rs.length := by
    simp [mkColOfRows, length_cumulFrom]
  rw [hlen]
  apply List.ext_getElem
  · simp
  · intro n h1 h2
    simp only [List.getElem_map, List.getElem_range]
    rw [rowBytes_mkColOfRows rs n (by simpa using h2)]
    simp [List.getD_eq_getElem?_getD, List.getElem?_eq_getElem h2]

theorem foldl_appendRowStep (ps : List (List Nat × Nat)) (ch offs : List Nat) (n : Nat)
    (hps : ∀ p ∈ ps, (p.1).length = p.2) :
    ps.foldl appendRowStep (ch, offs, n) =
      (ch ++ (ps.map Prod.fst).flatten,
       offs ++ cumulFrom n (ps.map Prod.fst),
       n + sumLen (ps.map Prod.fst)) := by
  induction ps generalizing ch offs n with
  | nil => simp [cumulFrom, sumLen]
  | cons p ps ih =>
    have hp : (p.1).length = p.2 := hps p (List.mem_cons_self p ps)
    simp only [List.foldl_cons, appendRowStep]
    rw [ih _ _ _ (fun q hq => hps q (List.mem_cons_of_mem p hq))]
    simp only [List.map_cons, List.flatten_cons, cumulFrom, sumLen_cons, ← hp]
    refine Prod.ext ?_ (Prod.ext ?_ ?_) <;> simp <;> omega

theorem buildCol_eq_mkColOfRows (ps : List (List Nat × Nat))
    (hps : ∀ p ∈ ps, (p.1).length = p.2) :
    buildCol ps = mkColOfRows (ps.map Prod.fst) := by
  unfold buildCol mkColOfRows
  rw [foldl_appendRowStep ps [] [] 0 hps]
  simp

theorem rowsOf_buildCol (ps : List (List Nat × Nat))
    (hps : ∀ p ∈ ps, (p.1).length = p.2) :
    rowsOf (buildCol ps) = ps.map Prod.fst := by
  rw [buildCol_eq_mkColOfRows ps hps, rowsOf_mkColOfRows]

theorem getD_eq_getLastD (l : List Nat) (h : l ≠ []) :
    l.getD (l.length - 1) 0 = l.getLastD 0 := by
  rw [List.getLastD_eq_getLast?, List.getLast?_eq_getElem?, List.getD_eq_getElem?_getD]

theorem valid_offsets_mono (c : Col) (hv : Valid c) (i j : Nat)
    (hij : i ≤ j) (hj : j < c.offsets.length) :
    c.offsets.getD i 0 ≤ c.offsets.getD j 0 := by
  rcases Nat.lt_or_ge i j with hlt | hge
  · have := (List.pairwise_iff_getElem.mp hv.1) i j (by omega) hj hlt
    rwa [List.getD_eq_getElem?_getD, List.getD_eq_getElem?_getD,
         List.getElem?_eq_getElem (by omega : i < c.offsets.length),
         List.getElem?_eq_getElem hj]
  · have : i = j := by omega
    simp [this]

theorem rowBytes_length (c : Col) (hv : Valid c) (i : Nat) (hi : i < c.offsets.length) :
    (rowBytes c i).length = sizeAt c i := by
  obtain ⟨hoff, hsz⟩ := hv.2.2.2 i hi
  unfold rowBytes
  rw [List.length_take, List.length_drop]
  unfold sizeAt
  omega

theorem offAt_add_sizeAt (c : Col) (hv : Valid c) (i : Nat) (hi : i < c.offsets.length) :
    offAt c i + sizeAt c i = c.offsets.getD i 0 := by
  obtain ⟨hoff, _⟩ := hv.2.2.2 i hi
  unfold sizeAt
  omega

theorem flatten_rowsOf_from (c : Col) (hv : Valid c) :
    ∀ d i, i + d = c.offsets.length →
      ((List.range' i d).map (rowBytes c)).flatten = c.chars.drop (offAt c i) := by
  intro d
  induction d with
  | zero =>
    intro i hi
    simp only [Nat.add_zero] at hi
    subst hi
    rcases Nat.eq_zero_or_pos c.offsets.length with h0 | h0
    · have : c.offsets = [] := List.eq_nil_of_length_eq_zero h0
      have : c.chars = [] := hv.2.2.1.mpr this
      simp [this, h0, List.range']
    · have hne : c.offsets ≠ [] := by
        intro h; rw [h] at h0; simp at h0
      have hlast := hv.2.1 hne
      have : offAt c c.offsets.length = c.chars.length := by
        unfold offAt
        have : c.offsets.length ≠ 0 := by omega
        simp only [this, if_false]
        rw [getD_eq_getLastD _ hne, hlast]
      rw [this]
      simp [List.range']
  | succ d ih =>
    intro i hi
    have hiN : i < c.offsets.length := by omega
    rw [List.range'_succ, List.map_cons, List.flatten_cons, ih (i + 1) (by omega)]
    have hnext : offAt c (i + 1) = c.offsets.getD i 0 := by
      unfold offAt; simp
    rw [hnext, ← offAt_add_sizeAt c hv i hiN]
    unfold rowBytes
    rw [← List.drop_drop, List.take_append_drop]

theorem offsets_eq_cumulFrom (c : Col) (hv : Valid c) (i : Nat) (hi : i < c.offsets.length) :
    sumLen ((rowsOf c).take (i + 1)) = c.offsets.getD i 0 := by
  induction i with
  | zero =>
    have h0 : (rowsOf c).getD 0 [] = rowBytes c 0 := by
      unfold rowsOf
      rw [List.getD_eq_getElem?_getD, List.getElem?_eq_getElem (by simpa using hi)]
      simp
    rw [sumLen_take_succ _ 0 (by simpa [rowsOf] using hi), h0,
        rowBytes_length c hv 0 hi]
    simp [sumLen]
    unfold sizeAt offAt
    simp
  | succ j ihj =>
    have hj : j < c.offsets.length := by omega
    have hrl : (rowsOf c).getD (j + 1) [] = rowBytes c (j + 1) := by
      unfold rowsOf
      rw [List.getD_eq_getElem?_getD, List.getElem?_eq_getElem (by simpa using hi)]
      simp
    rw [sumLen_take_succ _ (j + 1) (by simpa [rowsOf] using hi), ihj hj, hrl,
        rowBytes_length c hv (j + 1) hi]
    have hnext : offAt c (j + 1) = c.offsets.getD j 0 := by
      unfold offAt; simp
    have := offAt_add_sizeAt c hv (j + 1) hi
    omega

theorem mkColOfRows_rowsOf (c : Col) (hv : Valid c) :
    mkColOfRows (rowsOf c) = c := by
  have hchars : (rowsOf c).flatten = c.chars := by
    have := flatten_rowsOf_from c hv c.offsets.length 0 (by omega)
    simpa [rowsOf, List.range_eq_range', offAt] using this
  have hoffs : cumulFrom 0 (rowsOf c) = c.offsets := by
    apply List.ext_getElem
    · simp [length_cumulFrom, rowsOf]
    · intro n h1 h2
      have hn : n < (rowsOf c).length := by simpa [length_cumulFrom] using h1
      have hn' : n < c.offsets.length := by simpa [rowsOf] using hn
      have := cumulFrom_getD 0 (rowsOf c) n hn
      have h2' := offsets_eq_cumulFrom c hv n hn'
      rw [List.getD_eq_getElem?_getD, List.getElem?_eq_getElem h1] at this
      rw [List.getD_eq_getElem?_getD, List.getElem?_eq_getElem h2] at h2'
      simp at this h2'
      omega
  unfold mkColOfRows
  rw [hchars, hoffs]

theorem sumLen_rowsOf (c : Col) (hv : Valid c) : sumLen (rowsOf c) = c.chars.length := by
  have h := congrArg Col.chars (mkColOfRows_rowsOf c hv)
  have : (rowsOf c).flatten = c.chars := h
  rw [← this]
  simp [sumLen, List.length_flatten]

theorem cumulFrom_replicate_single (k : Nat) (n : Nat) :
    cumulFrom n (List.replicate k [0]) = (List.range k).map (fun i => n + i + 1) := by
  induction k generalizing n with
  | zero => simp [cumulFrom]
  | succ m ih =>
    rw [List.replicate_succ, List.range_succ_eq_map]
    simp only [cumulFrom, List.length_cons, List.length_nil, List.map_cons, List.map_map]
    rw [ih (n + 1)]
    congr 1
    apply List.map_congr_left
    intro a _
    simp
    omega

theorem flatten_replicate_single (k : Nat) :
    (List.replicate k ([0] : List Nat)).flatten = List.replicate k 0 := by
  induction k with
  | zero => rfl
  | succ m ih => rw [List.replicate_succ, List.flatten_cons, ih]; rfl

theorem getD_take (l : List Nat) (n m : Nat) (h : m < n) :
    (l.take n).getD m 0 = l.getD m 0 := by
  rw [List.getD_eq_getElem?_getD, List.getD_eq_getElem?_getD, List.getElem?_take]
  simp [h]

/-- C2 (counterexample): the claim says an appended empty row occupies a
zero-length byte range with no bytes added to the byte buffer, so
`clone_resized(1)` on the empty column would leave `chars` empty; the code
instead appends one zero terminating byte per extra row (source lines 40-48). -/
theorem c2_clone_resized_counterexample :
    (cloneResized ⟨[], []⟩ 1).chars ≠ [] := by decide

/-- C2 (amended): `clone_resized(to_size)` returns exactly `to_size` rows;
when `to_size ≤ N` the rows are byte-identical to the first `to_size` rows of
the source; when `to_size > N` the result is the source's rows followed by
`to_size − N` default rows, each occupying a one-byte range holding a single
zero terminating byte (one offset entry and one zero byte appended per extra
row) — not a zero-length range as originally claimed. -/
theorem c2_clone_resized_amended (c : Col) (hv : Valid c) (toSize : Nat) :
    (cloneResized c toSize).offsets.length = toSize ∧
    (toSize ≤ c.offsets.length →
      rowsOf (cloneResized c toSize) = (rowsOf c).take toSize) ∧
    (c.offsets.length < toSize →
      rowsOf (cloneResized c toSize) =
        rowsOf c ++ List.replicate (toSize - c.offsets.length) [0]) := by
  rcases Nat.eq_zero_or_pos toSize with h0 | h0
  · subst h0
    refine ⟨by simp [cloneResized], fun _ => by simp [cloneResized, rowsOf], fun h => by omega⟩
  rcases le_or_lt toSize c.offsets.length with hle | hgt
  · -- truncation branch
    have hne : toSize ≠ 0 := by omega
    have hres : cloneResized c toSize =
        ⟨c.chars.take (c.offsets.getD (toSize - 1) 0), c.offsets.take toSize⟩ := by
      unfold cloneResized
      simp [hne, hle]
    have hlen : (cloneResized c toSize).offsets.length = toSize := by
      rw [hres]; simp; omega
    refine ⟨hlen, fun _ => ?_, fun h => by omega⟩
    have hrow : ∀ i, i < toSize → rowBytes (cloneResized c toSize) i = rowBytes c i := by
      intro i hi
      have hiN : i < c.offsets.length := by omega
      have hoffA : offAt (cloneResized c toSize) i = offAt c i := by
        unfold offAt
        rcases Nat.eq_zero_or_pos i with hz | hz
        · simp [hz]
        · have : i ≠ 0 := by omega
          simp only [this, if_false, hres]
          exact getD_take _ _ _ (by omega)
      have hszA : sizeAt (cloneResized c toSize) i = sizeAt c i := by
        unfold sizeAt
        rw [hoffA, hres]
        show (c.offsets.take toSize).getD i 0 - _ = _
        rw [getD_take _ _ _ (by omega)]
      unfold rowBytes
      rw [hoffA, hszA, hres]
      show ((c.chars.take (c.offsets.getD (toSize - 1) 0)).drop (offAt c i)).take
          (sizeAt c i) = _
      rw [List.drop_take, List.take_take]
      congr 1
      have h1 := offAt_add_sizeAt c hv i hiN
      have h2 := valid_offsets_mono c hv i (toSize - 1) (by omega) (by omega)
      omega
    have hL : rowsOf (cloneResized c toSize) =
        (List.range toSize).map (rowBytes (cloneResized c toSize)) := by
      unfold rowsOf
      rw [hlen]
    have hR : (rowsOf c).take toSize = (List.range toSize).map (rowBytes c) := by
      unfold rowsOf
      rw [← List.map_take, List.take_range, Nat.min_eq_left hle]
    rw [hL, hR]
    apply List.map_congr_left
    intro i hi
    exact hrow i (List.mem_range.mp hi)
  · -- growth branch
    have hne : toSize ≠ 0 := by omega
    have hnle : ¬ toSize ≤ c.offsets.length := by omega
    set k := toSize - c.offsets.length with hk
    have hbase : cloneResized c toSize =
        ⟨c.chars ++ List.replicate k 0,
         c.offsets ++ (List.range k).map (fun i => c.chars.length + i + 1)⟩ := by
      unfold cloneResized
      simp only [hne, if_false, hnle, ← hk]
      rcases Nat.eq_zero_or_pos c.offsets.length with hz | hz
      · have hoe : c.offsets = [] := List.eq_nil_of_length_eq_zero hz
        have hce : c.chars = [] := hv.2.2.1.mpr hoe
        simp [hz, hoe, hce]
      · have hnz : 0 < c.offsets.length := hz
        have hoe : c.offsets ≠ [] := by
          intro h; rw [h] at hnz; simp at hnz
        have hlast := hv.2.1 hoe
        simp [hnz, hlast]
        intro a _
        rw [← List.getLastD_eq_getLast?]
        exact hlast
    have hmk : cloneResized c toSize = mkColOfRows (rowsOf c ++ List.replicate k [0]) := by
      rw [hbase]
      unfold mkColOfRows
      rw [List.flatten_append, cumulFrom_append]
      have hch := congrArg Col.chars (mkColOfRows_rowsOf c hv)
      have hof := congrArg Col.offsets (mkColOfRows_rowsOf c hv)
      simp only [mkColOfRows] at hch hof
      rw [hch, hof, flatten_replicate_single, cumulFrom_replicate_single,
          sumLen_rowsOf c hv]
      simp
    have hlen : (cloneResized c toSize).offsets.length = toSize := by
      rw [hmk]
      simp [mkColOfRows, length_cumulFrom, rowsOf]
      omega
    refine ⟨hlen, fun h => by omega, fun _ => ?_⟩
    rw [hmk, rowsOf_mkColOfRows]

theorem c2_clone_resized_amended_witness :
    rowsOf (cloneResized colAB 4) = rowsOf colAB ++ List.replicate 2 [0] :=
  (c2_clone_resized_amended colAB (by decide) 4).2.2 (by decide)

theorem rowsOf_singleton (b : List Nat) : rowsOf ⟨b, [b.length]⟩ = [b] := by
  simp [rowsOf, rowBytes, offAt, sizeAt, List.range_succ]

theorem length_toLE64 (n : Nat) : (toLE64 n).length = 8 := rfl

theorem fromLE64_toLE64 (n : Nat) (h : n < 2 ^ 64) : fromLE64 (toLE64 n) = n := by
  unfold fromLE64 toLE64
  simp only [List.getD_cons_zero, List.getD_cons_succ]
  omega

/-- C6: `serialize_value_into_arena(n)` writes the 8-byte little-endian
length header followed by row `n`'s raw bytes, its view covering exactly
`8 + size_at(n)` bytes, and `deserialize_and_insert_from_arena` applied to
that region on a fresh column appends exactly one row byte-identical to row
`n`, appends one offset entry, and advances the pointer by `8 + size_at(n)`. -/
theorem c6_arena_round_trip (c : Col) (hv : Valid c) (n : Nat)
    (hn : n < c.offsets.length) (hw : c.chars.length < 2 ^ 64) :
    (serializeValueIntoArena c n).length = 8 + sizeAt c n ∧
    (deserializeAndInsertFromArena ⟨[], []⟩ (serializeValueIntoArena c n)).1 =
      ⟨rowBytes c n, [sizeAt c n]⟩ ∧
    rowsOf (deserializeAndInsertFromArena ⟨[], []⟩ (serializeValueIntoArena c n)).1 =
      [rowBytes c n] ∧
    (deserializeAndInsertFromArena ⟨[], []⟩ (serializeValueIntoArena c n)).2 =
      8 + sizeAt c n := by
  have hsz : sizeAt c n < 2 ^ 64 := by
    obtain ⟨h1, h2⟩ := hv.2.2.2 n hn
    unfold sizeAt
    omega
  have hrl : (rowBytes c n).length = sizeAt c n := rowBytes_length c hv n hn
  have hser : serializeValueIntoArena c n = toLE64 (sizeAt c n) ++ rowBytes c n := rfl
  have htake : (serializeValueIntoArena c n).take 8 = toLE64 (sizeAt c n) := by
    rw [hser, ← length_toLE64 (sizeAt c n), List.take_left]
  have hdrop : (serializeValueIntoArena c n).drop 8 = rowBytes c n := by
    rw [hser, ← length_toLE64 (sizeAt c n), List.drop_left]
  have hlen64 : fromLE64 ((serializeValueIntoArena c n).take 8) = sizeAt c n := by
    rw [htake, fromLE64_toLE64 _ hsz]
  have hcol : (deserializeAndInsertFromArena ⟨[], []⟩ (serializeValueIntoArena c n)).1 =
      ⟨rowBytes c n, [sizeAt c n]⟩ := by
    unfold deserializeAndInsertFromArena
    simp only [hlen64, hdrop]
    congr 1
    · simp [List.take_of_length_le (Nat.le_of_eq hrl)]
    · simp
  refine ⟨?_, hcol, ?_, ?_⟩
  · rw [hser]
    simp [length_toLE64, hrl]
  · rw [hcol, ← hrl, rowsOf_singleton]
  · unfold deserializeAndInsertFromArena
    simp only [hlen64]

theorem c6_arena_round_trip_witness :
    rowsOf (deserializeAndInsertFromArena ⟨[], []⟩ (serializeValueIntoArena colAB 1)).1 =
      [rowBytes colAB 1] :=
  (c6_arena_round_trip colAB (by decide) 1 (by decide) (by decide)).2.2.1

theorem replicatePairs_lengths (c : Col) (hv : Valid c) :
    ∀ (ro : List Nat) (i prevRo : Nat), i + ro.length ≤ c.offsets.length →
      ∀ p ∈ replicatePairs c i ro prevRo, (p.1).length = p.2 := by
  intro ro
  induction ro with
  | nil => intro i prevRo _ p hp; simp [replicatePairs] at hp
  | cons r ros ih =>
    intro i prevRo hle p hp
    simp only [replicatePairs, List.mem_append] at hp
    rcases hp with hp | hp
    · have := List.eq_of_mem_replicate hp
      subst this
      exact rowBytes_length c hv i (by simp at hle; omega)
    · exact ih (i + 1) r (by simp at hle ⊢; omega) p hp

theorem replicatePairs_map_fst (c : Col) :
    ∀ (ro : List Nat) (i prevRo : Nat),
      (replicatePairs c i ro prevRo).map Prod.fst =
        repRowsSpec ((List.range' i ro.length).map (rowBytes c)) ro prevRo := by
  intro ro
  induction ro with
  | nil => intro i prevRo; simp [replicatePairs, repRowsSpec]
  | cons r ros ih =>
    intro i prevRo
    simp only [replicatePairs, List.length_cons, List.range'_succ, List.map_cons,
               repRowsSpec, List.map_append, List.map_replicate]
    rw [ih (i + 1) r]

theorem chain_le_getLastD (l : List Nat) :
    ∀ a, List.Chain (· ≤ ·) a l → a ≤ l.getLastD a := by
  induction l with
  | nil => intro a _; simp
  | cons b l ih =>
    intro a hc
    rw [List.chain_cons] at hc
    have := ih b hc.2
    rw [List.getLastD_cons]
    omega

theorem replicatePairs_length (c : Col) :
    ∀ (ro : List Nat) (i prevRo : Nat), List.Chain (· ≤ ·) prevRo ro →
      (replicatePairs c i ro prevRo).length = ro.getLastD prevRo - prevRo := by
  intro ro
  induction ro with
  | nil => intro i prevRo _; simp [replicatePairs]
  | cons r ros ih =>
    intro i prevRo hc
    rw [List.chain_cons] at hc
    have hlast := chain_le_getLastD ros r hc.2
    simp only [replicatePairs, List.length_append, List.length_replicate,
               List.getLastD_cons]
    rw [ih (i + 1) r hc.2]
    omega

theorem repRowsSpec_ones (rows : List (List Nat)) :
    ∀ p, repRowsSpec rows (List.range' (p + 1) rows.length) p = rows := by
  induction rows with
  | nil => intro p; simp [repRowsSpec]
  | cons row rest ih =>
    intro p
    simp only [List.length_cons, List.range'_succ, repRowsSpec]
    rw [ih (p + 1)]
    simp

theorem valid_empty_col (c : Col) (hv : Valid c) (h : c.offsets.length = 0) :
    c = ⟨[], []⟩ := by
  have hoe : c.offsets = [] := List.eq_nil_of_length_eq_zero h
  have hce : c.chars = [] := hv.2.2.1.mpr hoe
  cases c
  simp_all

/-- C4 (counterexample): the array-returning `replicate` interprets its
argument as cumulative offsets, not per-row counts (source lines 284-299:
`size_to_replicate = replicate_offsets[i] - prev_replicate_offset`), so on the
two-row column `colAB` with argument `[1,1]` — every "count" equal to 1 — the
result has a single row (row 0 once, row 1 zero times) instead of equalling
the source as the claim requires. -/
theorem c4_replicate_counterexample :
    replicate colAB [1, 1] = .ok ⟨[97, 0], [2]⟩ ∧
    (⟨[97, 0], [2]⟩ : Col) ≠ colAB := by
  refine ⟨by rfl, by decide⟩

/-- C4 (amended): the array-returning `replicate(replicate_offsets)` takes a
*cumulative* argument: row `i` is repeated `replicate_offsets[i] -
replicate_offsets[i-1]` times in output order, the total output row count is
`replicate_offsets.back()`, a length mismatch is a fatal error, and the
identity cumulative argument `[1, 2, ..., N]` (the prefix sums of all-ones
counts) returns a column equal to the source. -/
theorem c4_replicate_amended (c : Col) (hv : Valid c) (ro : List Nat)
    (hlen : ro.length = c.offsets.length) (hmono : List.Chain (· ≤ ·) 0 ro) :
    (∀ ro' : List Nat, ro'.length ≠ c.offsets.length → replicate c ro' = .error ()) ∧
    ∀ r, replicate c ro = .ok r →
      rowsOf r = repRowsSpec (rowsOf c) ro 0 ∧
      r.offsets.length = ro.getLastD 0 ∧
      (ro = List.range' 1 c.offsets.length → r = c) := by
  constructor
  · intro ro' hne
    have h' : c.offsets.length ≠ ro'.length := fun h => hne h.symm
    unfold replicate
    simp [h']
  rcases Nat.eq_zero_or_pos c.offsets.length with hN | hN
  · have hro : ro = [] := List.eq_nil_of_length_eq_zero (by omega)
    have hc := valid_empty_col c hv hN
    intro r hr
    unfold replicate at hr
    rw [hro] at hr
    simp [hN, ← hlen, hro] at hr
    subst hr
    refine ⟨by simp [rowsOf, hro, repRowsSpec], by simp [hro], fun _ => by rw [hc]⟩
  · intro r hr
    unfold replicate at hr
    have hne : ¬ c.offsets.length ≠ ro.length := by omega
    have hnz : ¬ c.offsets.length = 0 := by omega
    simp only [hne, if_false, hnz, Except.ok.injEq] at hr
    have hps := replicatePairs_lengths c hv ro 0 0 (by omega)
    have hrows : rowsOf r = repRowsSpec (rowsOf c) ro 0 := by
      rw [← hr, rowsOf_buildCol _ hps, replicatePairs_map_fst c ro 0 0]
      have : rowsOf c = (List.range' 0 ro.length).map (rowBytes c) := by
        unfold rowsOf
        rw [List.range_eq_range', hlen]
      rw [this]
    refine ⟨hrows, ?_, ?_⟩
    · have h1 : r.offsets.length = (replicatePairs c 0 ro 0).length := by
        rw [← hr, buildCol_eq_mkColOfRows _ hps]
        simp [mkColOfRows, length_cumulFrom]
      rw [h1, replicatePairs_length c ro 0 0 hmono]
      omega
    · intro hone
      have hrc : rowsOf r = rowsOf c := by
        rw [hrows, hone, ← hlen]
        have : ro.length = c.offsets.length := hlen
        have hlr : (rowsOf c).length = ro.length := by simp [rowsOf]; omega
        rw [← hlr]
        exact repRowsSpec_ones (rowsOf c) 0
      have hfst : rowsOf r = (replicatePairs c 0 ro 0).map Prod.fst := by
        rw [← hr, rowsOf_buildCol _ hps]
      calc r = buildCol (replicatePairs c 0 ro 0) := hr.symm
        _ = mkColOfRows ((replicatePairs c 0 ro 0).map Prod.fst) :=
            buildCol_eq_mkColOfRows _ hps
        _ = mkColOfRows (rowsOf r) := by rw [hfst]
        _ = mkColOfRows (rowsOf c) := by rw [hrc]
        _ = c := mkColOfRows_rowsOf c hv

theorem c4_replicate_amended_witness : replicate colAB [1, 2] = .ok colAB := by
  have he : replicate colAB [1, 2] = .ok (buildCol (replicatePairs colAB 0 [1, 2] 0)) := by
    rfl
  have hch : List.Chain (· ≤ ·) 0 [1, 2] := by
    simp [List.chain_cons]
  have h := ((c4_replicate_amended colAB (by decide) [1, 2] (by decide) hch).2
    _ he).2.2 (by decide)
  rw [he, h]

/-- C7 (counterexample): the claim requires a fatal failure whenever
`perm.size() < limit`; but the source clamps `limit` to `min(size, limit)`
*before* the check (lines 129-136), so on the two-row column `colAB` with
`perm = [0,1]` and `limit = 5` (where `2 = perm.size() < limit = 5`) the call
succeeds and returns the permuted column instead of failing. -/
theorem c7_permute_counterexample :
    ([0, 1] : List Nat).length < 5 ∧
    permute colAB [0, 1] 5 = .ok ⟨[97, 0, 98, 0], [2, 4]⟩ := by
  refine ⟨by decide, by rfl⟩

/-- C7 (amended): `permute(perm, limit)` fails fatally exactly when
`perm.size()` is smaller than the *effective* limit `min(N, limit)` (with
`limit == 0` meaning `N`); otherwise it returns a new column of exactly the
effective-limit many rows whose row `i` equals source row `perm[i]`. -/
theorem c7_permute_amended (c : Col) (hv : Valid c) (perm : List Nat) (limit : Nat)
    (hb : ∀ j ∈ perm, j < c.offsets.length) :
    (permute c perm limit = .error () ↔
      perm.length < (if limit = 0 then c.offsets.length else min c.offsets.length limit)) ∧
    ∀ r, permute c perm limit = .ok r →
      r.offsets.length = (if limit = 0 then c.offsets.length else min c.offsets.length limit) ∧
      rowsOf r =
        (perm.take (if limit = 0 then c.offsets.length else min c.offsets.length limit)).map
          (rowBytes c) := by
  set lim := if limit = 0 then c.offsets.length else min c.offsets.length limit with hlim
  have hperm : permute c perm limit =
      (if perm.length < lim then .error ()
       else .ok (buildCol ((perm.take lim).map (fun j => (rowBytes c j, sizeAt c j))))) := by
    unfold permute
    simp only [← hlim]
  constructor
  · rw [hperm]
    constructor
    · intro h
      by_contra hc
      simp [hc] at h
    · intro h
      simp [h]
  · intro r hr
    rw [hperm] at hr
    by_cases hlt : perm.length < lim
    · simp [hlt] at hr
    · simp only [hlt, if_false, Except.ok.injEq] at hr
      have hps : ∀ p ∈ (perm.take lim).map (fun j => (rowBytes c j, sizeAt c j)),
          (p.1).length = p.2 := by
        intro p hp
        rw [List.mem_map] at hp
        obtain ⟨j, hj, hpj⟩ := hp
        have hjN : j < c.offsets.length := hb j (List.mem_of_mem_take hj)
        rw [← hpj]
        exact rowBytes_length c hv j hjN
      constructor
      · rw [← hr, buildCol_eq_mkColOfRows _ hps]
        simp [mkColOfRows, length_cumulFrom]
        omega
      · rw [← hr, rowsOf_buildCol _ hps, List.map_map]
        rfl

theorem c7_permute_amended_witness :
    rowsOf (buildCol (([1, 0].take 2).map (fun j => (rowBytes colAB j, sizeAt colAB j)))) =
      ([1, 0].take 2).map (rowBytes colAB) := by
  have h := (c7_permute_amended colAB (by decide) [1, 0] 0 (by decide)).2
  have he : permute colAB [1, 0] 0 =
      .ok (buildCol (([1, 0].take 2).map (fun j => (rowBytes colAB j, sizeAt colAB j)))) := by
    rfl
  simpa using (h _ he).2

theorem cmpBytes_self : ∀ x : List Nat, cmpBytes x x = .eq := by
  intro x
  induction x with
  | nil => rfl
  | cons a as ih => simp [cmpBytes, ih]

theorem cmpBytes_swap : ∀ x y : List Nat, cmpBytes y x = (cmpBytes x y).swap := by
  intro x
  induction x with
  | nil => intro y; cases y <;> rfl
  | cons a as ih =>
    intro y
    cases y with
    | nil => rfl
    | cons b bs =>
      simp only [cmpBytes]
      by_cases hab : a < b
      · have : ¬ b < a := by omega
        simp [hab, this, Ordering.swap]
      · by_cases hba : b < a
        · simp [hab, hba, Ordering.swap]
        · simp [hab, hba, ih bs]

theorem cmpBytes_le_trans : ∀ x y z : List Nat,
    cmpBytes x y ≠ .gt → cmpBytes y z ≠ .gt → cmpBytes x z ≠ .gt := by
  intro x
  induction x with
  | nil =>
    intro y z _ _
    cases z <;> simp [cmpBytes]
  | cons a as ih =>
    intro y z h1 h2
    cases y with
    | nil => simp [cmpBytes] at h1
    | cons b bs =>
      cases z with
      | nil => simp [cmpBytes] at h2
      | cons cc cs =>
        simp only [cmpBytes] at h1 h2 ⊢
        by_cases hab : a < b
        · by_cases hac : a < cc
          · simp [hac]
          · by_cases hbc : b < cc
            · omega
            · by_cases hcb : cc < b
              · simp [hbc, hcb] at h2
              · omega
        · by_cases hba : b < a
          · simp [hab, hba] at h1
          · have hab' : a = b := by omega
            by_cases hbc : b < cc
            · have hac : a < cc := by omega
              simp [hac]
            · by_cases hcb : cc < b
              · simp [hbc, hcb] at h2
              · have h1' : cmpBytes as bs ≠ .gt := by simpa [hab, hba] using h1
                have h2' : cmpBytes bs cs ≠ .gt := by simpa [hbc, hcb] using h2
                have hac : ¬ a < cc := by omega
                have hca : ¬ cc < a := by omega
                simp [hac, hca]
                exact ih bs cs h1' h2'

theorem cmpBytes_ne_lt_of_swap (x y : List Nat) (h : cmpBytes x y ≠ .gt) :
    cmpBytes y x ≠ .lt := by
  rw [cmpBytes_swap x y]
  cases hxy : cmpBytes x y <;> simp [Ordering.swap] <;> simp [hxy] at h

theorem cmpBytes_ne_gt_of_swap (x y : List Nat) (h : cmpBytes x y ≠ .lt) :
    cmpBytes y x ≠ .gt := by
  rw [cmpBytes_swap x y]
  cases hxy : cmpBytes x y <;> simp [Ordering.swap] <;> simp [hxy] at h

theorem leAsc_total (c : Col) : ∀ a b, leAsc c a b ∨ leAsc c b a := by
  intro a b
  unfold leAsc
  by_cases h : cmpBytes (cmpPayload c b) (cmpPayload c a) = .lt
  · right
    rw [cmpBytes_swap]
    simp [h, Ordering.swap]
  · left; exact h

theorem leAsc_trans (c : Col) : ∀ a b d, leAsc c a b → leAsc c b d → leAsc c a d := by
  intro a b d h1 h2
  unfold leAsc at h1 h2 ⊢
  have h1' : cmpBytes (cmpPayload c a) (cmpPayload c b) ≠ .gt :=
    cmpBytes_ne_gt_of_swap _ _ h1
  have h2' : cmpBytes (cmpPayload c b) (cmpPayload c d) ≠ .gt :=
    cmpBytes_ne_gt_of_swap _ _ h2
  exact cmpBytes_ne_lt_of_swap _ _ (cmpBytes_le_trans _ _ _ h1' h2')

theorem leDesc_total (c : Col) : ∀ a b, leDesc c a b ∨ leDesc c b a := by
  intro a b
  unfold leDesc
  by_cases h : cmpBytes (cmpPayload c b) (cmpPayload c a) = .gt
  · right
    rw [cmpBytes_swap]
    simp [h, Ordering.swap]
  · left; exact h

theorem leDesc_trans (c : Col) : ∀ a b d, leDesc c a b → leDesc c b d → leDesc c a d := by
  intro a b d h1 h2
  unfold leDesc at h1 h2 ⊢
  exact cmpBytes_le_trans _ _ _ h2 h1

theorem leAsc_refl (c : Col) (a : Nat) : leAsc c a a := by
  unfold leAsc
  simp [cmpBytes_self]

theorem leDesc_refl (c : Col) (a : Nat) : leDesc c a a := by
  unfold leDesc
  simp [cmpBytes_self]

/-- C5 (counterexample): the comparator drops each row's final byte
(`size_at - 1`, source line 237), so on the column with rows `[1,200]` and
`[1,2,100]` (which do not end in a terminator byte) `get_permutation` returns
`[0,1]` although under unsigned byte-lexicographic comparison of the *full*
payloads row 0 is strictly greater than row 1 — the output is not
non-decreasing in the claimed order (that would require `[1,0]`). -/
theorem c5_get_permutation_counterexample :
    getPermutation colCmp false 0 = [0, 1] ∧
    cmpBytes (rowBytes colCmp 0) (rowBytes colCmp 1) = .gt := by
  refine ⟨by rfl, by rfl⟩

/-- C5 (amended): `get_permutation(reverse, limit, res)` produces a
permutation of the row indices ordered by unsigned byte-lexicographic
comparison of the row payloads *with each row's final byte dropped* (the
comparator uses `size_at - 1`): non-decreasing for `reverse=false`,
non-increasing for `reverse=true`; with `0 < limit < N` the first `limit`
positions are correctly ordered relative to all other rows, and with
`limit == 0` or `limit >= N` the whole permutation is sorted. -/
theorem c5_get_permutation_amended (c : Col) (hv : Valid c)
    (hrows : ∀ i, i < c.offsets.length → 1 ≤ sizeAt c i) (reverse : Bool) (limit : Nat) :
    (getPermutation c reverse limit).Perm (List.range c.offsets.length) ∧
    (∀ i j, i < (if limit = 0 ∨ c.offsets.length ≤ limit then c.offsets.length else limit) →
      i ≤ j → j < (getPermutation c reverse limit).length →
      (if reverse then leDesc c else leAsc c)
        ((getPermutation c reverse limit).getD i 0)
        ((getPermutation c reverse limit).getD j 0)) := by
  have hres : getPermutation c reverse limit =
      (if reverse then (List.range c.offsets.length).insertionSort (leDesc c)
       else (List.range c.offsets.length).insertionSort (leAsc c)) := by
    unfold getPermutation
    cases reverse <;> simp
  constructor
  · rw [hres]
    cases reverse <;> simp <;> exact List.perm_insertionSort _ _
  · intro i j hik hij hj
    have hsort : List.Pairwise ((if reverse then leDesc c else leAsc c))
        (getPermutation c reverse limit) := by
      rw [hres]
      cases reverse with
      | false =>
        haveI : IsTotal Nat (leAsc c) := ⟨leAsc_total c⟩
        haveI : IsTrans Nat (leAsc c) := ⟨leAsc_trans c⟩
        simpa using List.sorted_insertionSort (leAsc c) (List.range c.offsets.length)
      | true =>
        haveI : IsTotal Nat (leDesc c) := ⟨leDesc_total c⟩
        haveI : IsTrans Nat (leDesc c) := ⟨leDesc_trans c⟩
        simpa using List.sorted_insertionSort (leDesc c) (List.range c.offsets.length)
    rcases Nat.lt_or_ge i j with hlt | hge
    · have := (List.pairwise_iff_getElem.mp hsort) i j (by omega) hj hlt
      rwa [List.getD_eq_getElem?_getD, List.getD_eq_getElem?_getD,
           List.getElem?_eq_getElem (by omega : i < (getPermutation c reverse limit).length),
           List.getElem?_eq_getElem hj]
    · have hije : i = j := by omega
      subst hije
      cases reverse <;> simp [leAsc_refl, leDesc_refl]

theorem c5_get_permutation_amended_witness :
    (getPermutation colAB false 0).Perm (List.range 2) ∧
    leAsc colAB ((getPermutation colAB false 0).getD 0 0)
      ((getPermutation colAB false 0).getD 1 0) := by
  have h := c5_get_permutation_amended colAB (by decide) (by decide) false 0
  exact ⟨h.1, h.2 0 1 (by decide) (by decide) (by decide)⟩

end ColumnJson

namespace DataTypeMap

theorem fromStringLoop_fuel_irrelevant {κ ν : Type}
    (pk : List Char → Option κ) (pv : List Char → Option ν) :
    ∀ (f1 : Nat) (s : List Char) (keys : List κ) (vals : List ν) (eNum : Nat) (f2 : Nat),
      s.length ≤ f1 → s.length ≤ f2 →
      fromStringLoop pk pv f1 s keys vals eNum =
        fromStringLoop pk pv f2 s keys vals eNum := by
  intro f1
  induction f1 with
  | zero =>
    intro s keys vals eNum f2 h1 _
    have hs : s = [] := List.eq_nil_of_length_eq_zero (by omega)
    subst hs
    cases f2 <;> simp [fromStringLoop]
  | succ f ih =>
    intro s keys vals eNum f2 h1 h2
    by_cases hs : s = []
    · subst hs
      cases f2 <;> simp [fromStringLoop]
    · have hlen : 1 ≤ s.length := by
        cases s with
        | nil => exact absurd rfl hs
        | cons a as => simp
      obtain ⟨g, rfl⟩ : ∃ g, f2 = g + 1 := ⟨f2 - 1, by omega⟩
      simp only [fromStringLoop, hs, if_false]
      cases hns : nextSlot s with
      | none => rfl
      | some t1 =>
        obtain ⟨ktok, k1⟩ := t1
        dsimp only
        cases hns1 : nextSlot (s.drop (k1 + 1)) with
        | none => rfl
        | some t2 =>
          obtain ⟨vtok, k2⟩ := t2
          dsimp only
          cases hpk : pk ktok with
          | none => rfl
          | some k =>
            dsimp only
            cases hpv : pv vtok with
            | none => rfl
            | some v =>
              dsimp only
              apply ih
              · simp only [List.length_drop]
                omega
              · simp only [List.length_drop]
                omega

theorem fromStringLoop_sizes {κ ν : Type}
    (pk : List Char → Option κ) (pv : List Char → Option ν) :
    ∀ (fuel : Nat) (s : List Char) (keys : List κ) (vals : List ν) (eNum : Nat),
      eNum ≤ keys.length → eNum ≤ vals.length →
      (((fromStringLoop pk pv fuel s keys vals eNum).err = some .keyParse →
         (fromStringLoop pk pv fuel s keys vals eNum).keys.length = keys.length - eNum ∧
         (fromStringLoop pk pv fuel s keys vals eNum).vals.length = vals.length - eNum) ∧
       ((fromStringLoop pk pv fuel s keys vals eNum).err = some .valParse →
         (fromStringLoop pk pv fuel s keys vals eNum).keys.length = keys.length - eNum + 1 ∧
         (fromStringLoop pk pv fuel s keys vals eNum).vals.length = vals.length - eNum)) := by
  intro fuel
  induction fuel with
  | zero =>
    intro s keys vals eNum _ _
    refine ⟨fun h => ?_, fun h => ?_⟩ <;> simp [fromStringLoop] at h
  | succ f ih =>
    intro s keys vals eNum hk hvv
    by_cases hs : s = []
    · refine ⟨fun h => ?_, fun h => ?_⟩ <;> simp [fromStringLoop, hs] at h
    · simp only [fromStringLoop, hs, if_false]
      cases hns : nextSlot s with
      | none =>
        refine ⟨fun h => ?_, fun h => ?_⟩ <;> simp at h
      | some t1 =>
        obtain ⟨ktok, k1⟩ := t1
        dsimp only
        cases hns1 : nextSlot (s.drop (k1 + 1)) with
        | none =>
          refine ⟨fun h => ?_, fun h => ?_⟩ <;> simp at h
        | some t2 =>
          obtain ⟨vtok, k2⟩ := t2
          dsimp only
          cases hpk : pk ktok with
          | none =>
            refine ⟨fun _ => ?_, fun h => ?_⟩
            · simp only [popBackPair]
              constructor <;> (simp [List.length_take]; try omega)
            · simp at h
          | some k =>
            dsimp only
            cases hpv : pv vtok with
            | none =>
              refine ⟨fun h => ?_, fun _ => ?_⟩
              · simp at h
              · simp only [popBackPair]
                constructor <;> (simp [List.length_take]; try omega)
            | some v =>
              dsimp only
              have := ih ((s.drop (k1 + 1)).drop (k2 + 1)) (keys ++ [k]) (vals ++ [v])
                (eNum + 1) (by simp; omega) (by simp; omega)
              refine ⟨fun h => ?_, fun h => ?_⟩
              · obtain ⟨h1a, h1b⟩ := this.1 h
                simp only [List.length_append, List.length_cons, List.length_nil] at h1a h1b
                exact ⟨by omega, by omega⟩
              · obtain ⟨h2a, h2b⟩ := this.2 h
                simp only [List.length_append, List.length_cons, List.length_nil] at h2a h2b
                exact ⟨by omega, by omega⟩

/-- C3 (counterexample): on the literal with braces `"a":1,"b"` the second
pair's value-slot tokenization fails after the first pair `a:1` was already
parsed and inserted into the nested columns; the source then returns the
error *without* any `pop_back` (lines 189-193), leaving the keys and values
arrays one element larger than their pre-call sizes — the claimed rollback
does not happen on slot-tokenization failures. -/
theorem c3_from_string_counterexample :
    (fromString pAccept pAccept bufTokFail stEmpty).1 = some .valToken ∧
    (fromString pAccept pAccept bufTokFail stEmpty).2.keys.length = 1 ∧
    (fromString pAccept pAccept bufTokFail stEmpty).2.vals.length = 1 ∧
    stEmpty.keys.length = 0 ∧ stEmpty.vals.length = 0 := by
  refine ⟨by decide, by decide, by decide, by decide, by decide⟩

/-- C3 (amended): `from_string` rolls back only on element-parse failures.
On a key element-parse failure the nested keys and values columns return to
exactly their pre-call sizes; on a value element-parse failure the values
column returns to its pre-call size while the keys column is left one element
larger (`pop_back(element_num)` pops only the completed pairs, and the current
pair's freshly inserted key survives, source lines 196-203); on a
slot-tokenization failure no rollback is performed at all and elements
inserted for earlier pairs of the current row remain. -/
theorem c3_from_string_amended {κ ν : Type}
    (pk : List Char → Option κ) (pv : List Char → Option ν)
    (buf : List Char) (st : MapState κ ν) :
    (((fromString pk pv buf st).1 = some .keyParse →
        (fromString pk pv buf st).2.keys.length = st.keys.length ∧
        (fromString pk pv buf st).2.vals.length = st.vals.length) ∧
     ((fromString pk pv buf st).1 = some .valParse →
        (fromString pk pv buf st).2.keys.length = st.keys.length + 1 ∧
        (fromString pk pv buf st).2.vals.length = st.vals.length)) := by
  unfold fromString
  split
  · exact ⟨fun he => by simp at he, fun he => by simp at he⟩
  split
  · exact ⟨fun he => by simp at he, fun he => by simp at he⟩
  split
  · exact ⟨fun he => by simp at he, fun he => by simp at he⟩
  have hL := fromStringLoop_sizes pk pv (buf.drop 1).length (buf.drop 1)
    st.keys st.vals 0 (by omega) (by omega)
  cases hre : fromStringLoop pk pv (buf.drop 1).length (buf.drop 1) st.keys st.vals 0 with
  | mk err ks vs eN =>
    rw [hre] at hL
    cases err with
    | none => exact ⟨fun he => by simp at he, fun he => by simp at he⟩
    | some e =>
      refine ⟨fun he => ?_, fun he => ?_⟩
      · have he' : e = MapErr.keyParse := by simpa using he
        subst he'
        have := hL.1 rfl
        simpa using this
      · have he' : e = MapErr.valParse := by simpa using he
        subst he'
        have := hL.2 rfl
        simpa using this

theorem c3_from_string_amended_witness :
    (fromString pReject pAccept bufOnePair stEmpty).1 = some MapErr.keyParse ∧
    (fromString pReject pAccept bufOnePair stEmpty).2.keys.length = stEmpty.keys.length ∧
    (fromString pReject pAccept bufOnePair stEmpty).2.vals.length = stEmpty.vals.length := by
  have h := (c3_from_string_amended pReject pAccept bufOnePair stEmpty).1 (by decide)
  exact ⟨by decide, h.1, h.2⟩

/-- C8: Map binary serialization.  The nested array types' serializers and
deserializers are abstract (their classes are not among the supplied sources);
assuming each nested serializer appends its own block and each nested
deserializer consumes exactly its own block, `DataTypeMap::serialize` writes
the keys block immediately followed by the values block with no length prefix
between them, `get_uncompressed_serialized_bytes` is the sum of the two
sub-sizes, and `deserialize` consumes the two blocks in the same order,
advancing the pointer by exactly the total. -/
theorem c8_map_binary_format (kEnc vEnc : List Nat)
    (kSer vSer : List Nat → List Nat) (kDe vDe : List Nat → Nat)
    (kBytes vBytes : Nat)
    (hkSer : ∀ b, kSer b = b ++ kEnc) (hvSer : ∀ b, vSer b = b ++ vEnc)
    (hkBytes : kBytes = kEnc.length) (hvBytes : vBytes = vEnc.length)
    (hkDe : ∀ rest, kDe (kEnc ++ rest) = kEnc.length)
    (hvDe : ∀ rest, vDe (vEnc ++ rest) = vEnc.length) :
    (∀ buf, mapSerialize kSer vSer buf = buf ++ (kEnc ++ vEnc)) ∧
    mapSerializedBytes kBytes vBytes = kEnc.length + vEnc.length ∧
    (∀ rest, mapDeserialize kDe vDe (kEnc ++ (vEnc ++ rest)) =
      kEnc.length + vEnc.length) := by
  refine ⟨fun buf => ?_, ?_, fun rest => ?_⟩
  · rw [mapSerialize, hkSer, hvSer, List.append_assoc]
  · rw [mapSerializedBytes, hkBytes, hvBytes]
  · rw [mapDeserialize, hkDe (vEnc ++ rest)]
    rw [show kEnc ++ (vEnc ++ rest) = (kEnc ++ vEnc) ++ rest from
          (List.append_assoc _ _ _).symm]
    rw [List.drop_append_of_le_length (by simp)]
    simp [hvDe rest]

theorem c8_map_binary_format_witness :
    mapSerialize (fun b => b ++ [1, 2]) (fun b => b ++ [3]) [] = [1, 2] ++ [3] ∧
    mapDeserialize (fun _ => 2) (fun _ => 1) ([1, 2] ++ [3]) = 2 + 1 := by
  have h := c8_map_binary_format [1, 2] [3]
    (fun b => b ++ [1, 2]) (fun b => b ++ [3]) (fun _ => 2) (fun _ => 1) 2 1
    (fun _ => rfl) (fun _ => rfl) rfl rfl (fun _ => rfl) (fun _ => rfl)
  exact ⟨by simpa using h.1 [], by simpa using h.2.2 []⟩

theorem makeNullable_idem (t : DType) : makeNullable (makeNullable t) = makeNullable t := by
  unfold makeNullable
  cases t <;> simp [isNullableT]

theorem dtEquals_iff_eq : ∀ a b : DType, dtEquals a b = true ↔ a = b := by
  intro a
  induction a with
  | int => intro b; cases b <;> simp [dtEquals]
  | str => intro b; cases b <;> simp [dtEquals]
  | nullable a ih => intro b; cases b <;> simp [dtEquals, ih]
  | array a ih => intro b; cases b <;> simp [dtEquals, ih]
  | map k v ihk ihv => intro b; cases b <;> simp [dtEquals, ihk, ihv]

/-- C9: `DataTypeMap::equals` returns true exactly when the other type is
also a Map whose (nullable-coerced) key element type and value element type
each compare equal; in particular two Map types built from
differently-constructed but equal key/value types (e.g. one nullable-coerced)
compare equal, and a Map type never equals a non-Map type (the `typeid`
check, here the constructor match, rejects every other shape). -/
theorem c9_map_equals (k v : DType) :
    (∀ u : DType, dtEquals (mkDataTypeMap k v) u = true ↔
      (∃ k' v', u = mkDataTypeMap k' v' ∧
        dtEquals (makeNullable k) (makeNullable k') = true ∧
        dtEquals (makeNullable v) (makeNullable v') = true)) ∧
    dtEquals (mkDataTypeMap DType.int v) (mkDataTypeMap (DType.nullable DType.int) v) =
      true := by
  constructor
  · intro u
    constructor
    · intro h
      cases u with
      | map uk uv =>
        simp only [mkDataTypeMap, dtEquals, Bool.and_eq_true] at h
        have h1 : DType.array (makeNullable k) = uk := (dtEquals_iff_eq _ _).mp h.1
        have h2 : DType.array (makeNullable v) = uv := (dtEquals_iff_eq _ _).mp h.2
        refine ⟨makeNullable k, makeNullable v, ?_, ?_, ?_⟩
        · rw [← h1, ← h2]
          unfold mkDataTypeMap
          rw [makeNullable_idem, makeNullable_idem]
        · rw [makeNullable_idem]
          exact (dtEquals_iff_eq _ _).mpr rfl
        · rw [makeNullable_idem]
          exact (dtEquals_iff_eq _ _).mpr rfl
      | int => simp [mkDataTypeMap, dtEquals] at h
      | str => simp [mkDataTypeMap, dtEquals] at h
      | nullable a => simp [mkDataTypeMap, dtEquals] at h
      | array a => simp [mkDataTypeMap, dtEquals] at h
    · rintro ⟨k', v', rfl, hk, hv⟩
      simp only [mkDataTypeMap, dtEquals, Bool.and_eq_true]
      exact ⟨(dtEquals_iff_eq _ _).mpr (by rw [(dtEquals_iff_eq _ _).mp hk]),
             (dtEquals_iff_eq _ _).mpr (by rw [(dtEquals_iff_eq _ _).mp hv])⟩
  · simp [mkDataTypeMap, makeNullable, isNullableT, dtEquals_iff_eq]

theorem c9_map_equals_witness :
    dtEquals (mkDataTypeMap DType.int DType.str)
      (mkDataTypeMap (DType.nullable DType.int) DType.str) = true :=
  (c9_map_equals DType.int DType.str).2

end DataTypeMap
